import Mathlib

/-!
Verification of the `pattern` random-string-generator library.

The Go source is shallowly embedded: machine integers (`uint32`, `uint64`)
become `ℕ` with explicit reduction modulo `2^32` / `2^64` where overflow can
occur, `float64` values (used only for exactly-representable comparisons)
become `ℚ`, byte slices become `List ℕ`, and the shared random source
(`internal.Fastrand`, a stream of raw 64-bit values) becomes a tape
`ℕ → ℕ` of raw draws, each reduced modulo `2^64` at its use site.
Generation (`Append`) is modelled as a function that consumes a tape and
either returns the extended buffer together with the number of raw draws
consumed, or `none` where the Go code would panic (index out of range).
-/

namespace Pattern

/-- The `uint64` modulus `2^64`. -/
def M64 : ℕ := 2 ^ 64

/-- The `uint32` modulus `2^32`. -/
def M32 : ℕ := 2 ^ 32

/-- `internal.RandN(n)` applied to the raw 64-bit draw `r`:
`res, _ := bits.Mul64(uint64(n), Fastrand()); return uint32(res)`, i.e. the
high 64 bits of the 128-bit product `n * r`, truncated to `uint32`. -/
def RandN (n r : ℕ) : ℕ := n * (r % M64) / M64 % M32

/-- `internal.RandFloat64()` applied to the raw 64-bit draw `r`:
`float64(Fastrand()&int53Mask) * 0x1.0p-53`.  The masked 53-bit integer and
the scaling by `2^-53` are exact in `float64`, so the value is modelled
exactly as a rational. -/
def RandFloat64 (r : ℕ) : ℚ := ((r % M64 % 2 ^ 53 : ℕ) : ℚ) / 2 ^ 53

/-- `itob`: `'0' + byte(u)`. -/
def itob (u : ℕ) : ℕ := 48 + u

/-- Decimal digits of `u`, least significant first, as bytes (via `itob`);
the first argument is structural fuel (`fuel ≥ u` suffices).  This models the
digit-assembly loop of `appendInt` (`q := u / 10; b[i] = itob(u - q*10)`). -/
def decDigitsRev : ℕ → ℕ → List ℕ
  | _, 0 => []
  | 0, _ + 1 => []
  | fuel + 1, u + 1 => itob ((u + 1) % 10) :: decDigitsRev fuel ((u + 1) / 10)

/-- The decimal representation of `u` as bytes, most significant digit first;
`0` is written as `"0"`. -/
def decBytes (u : ℕ) : List ℕ :=
  if u = 0 then [itob 0] else (decDigitsRev u u).reverse

/-- The number of decimal digits of `u`, as computed by the first loop of
`appendInt` (`if u == 0 { n = 1 }; for u2 := u; u2 > 0; u2 /= 10 { n++ }`). -/
def digitCount (u : ℕ) : ℕ :=
  if u = 0 then 1 else (decDigitsRev u u).length

/-- `appendInt(b, u, width)`: append `max(width - n, 0)` zero bytes (where
`n` is the decimal digit count of `u`) followed by the decimal digits of `u`,
most significant first. -/
def appendInt (b : List ℕ) (u : ℕ) (width : ℤ) : List ℕ :=
  b ++ List.replicate (width - (digitCount u : ℤ)).toNat (itob 0) ++ decBytes u

/-- The initial value `start - 1` of a `sequence` counter, with `uint64`
wraparound (`var curr uint64 = start - 1`). -/
def seqInit (start : ℕ) : ℕ := (start + (M64 - 1)) % M64

/-- One step of the `sequence.Append` counter update: `curr := last + 1`
(mod `2^64`); `if curr > p.max || curr < p.start { curr = p.start }`. -/
def seqStep (start mx last : ℕ) : ℕ :=
  if mx < (last + 1) % M64 ∨ (last + 1) % M64 < start then start
  else (last + 1) % M64

/-- UTF-8 encoding of the code point `c`, as produced by Go's
`string(rune)` conversion; surrogates and out-of-range values encode the
replacement character `U+FFFD`. -/
def utf8Encode (c : ℕ) : List ℕ :=
  if c < 0x80 then [c]
  else if c < 0x800 then [0xC0 + c / 0x40, 0x80 + c % 0x40]
  else if 0xD800 ≤ c ∧ c < 0xE000 then [0xEF, 0xBF, 0xBD]
  else if c < 0x10000 then
    [0xE0 + c / 0x1000, 0x80 + c / 0x40 % 0x40, 0x80 + c % 0x40]
  else if c ≤ 0x10FFFF then
    [0xF0 + c / 0x40000, 0x80 + c / 0x1000 % 0x40, 0x80 + c / 0x40 % 0x40,
      0x80 + c % 0x40]
  else [0xEF, 0xBF, 0xBD]

/-- The closed set of runtime node types implementing the `Part` interface:
`nullpart`, `gen` (a generator used as a part), `literal`, `group`,
`repeat`, `potentially50`, `potentiallyP`, `anyOf`, `anyOfString`,
`anyOfByte`, `anyOfRune`, `shuffle`, and `sequence` (whose last field is the
current value of its shared counter). -/
inductive Part : Type where
  | nullpart : Part
  | gen : List Part → Part
  | literal : List ℕ → Part
  | group : List Part → Part
  | repeatp : List Part → ℕ → ℕ → Part
  | potentially50 : Part → Part
  | potentiallyP : Part → ℚ → Part
  | anyOf : List Part → Part
  | anyOfString : List (List ℕ) → Part
  | anyOfByte : List ℕ → Part
  | anyOfRune : List ℕ → Part
  | shuffle : List Part → Part
  | sequence : ℕ → ℕ → ℤ → ℕ → Part

mutual

/-- Structural size of a `Part` (termination measure for `Append`). -/
def psize : Part → ℕ
  | Part.nullpart => 1
  | Part.gen l => 1 + lsize l
  | Part.literal _ => 1
  | Part.group l => 1 + lsize l
  | Part.repeatp l _ _ => 1 + lsize l
  | Part.potentially50 p => 1 + psize p
  | Part.potentiallyP p _ => 1 + psize p
  | Part.anyOf l => 1 + lsize l
  | Part.anyOfString _ => 1
  | Part.anyOfByte _ => 1
  | Part.anyOfRune _ => 1
  | Part.shuffle l => 1 + lsize l
  | Part.sequence _ _ _ _ => 1

/-- Structural size of a list of `Part`s. -/
def lsize : List Part → ℕ
  | [] => 0
  | p :: rest => 1 + psize p + lsize rest

end

/-- Largest `psize` of a member of `l` (0 for `[]`). -/
def supSize (l : List Part) : ℕ := l.foldr (fun p m => max (psize p) m) 0

theorem psize_le_supSize {p : Part} {l : List Part} (h : p ∈ l) :
    psize p ≤ supSize l := by
  induction l with
  | nil => cases h
  | cons q rest ih =>
    rcases List.mem_cons.mp h with rfl | h
    · exact le_max_left _ _
    · exact le_trans (ih h) (le_max_right _ _)

theorem supSize_lt_one_add_lsize (l : List Part) : supSize l < 1 + lsize l := by
  induction l with
  | nil => simp [supSize, lsize]
  | cons q rest ih =>
    simp only [supSize, List.foldr, lsize] at *
    omega

theorem supSize_le_of_subset {l₁ l₂ : List Part} (h : ∀ x ∈ l₁, x ∈ l₂) :
    supSize l₁ ≤ supSize l₂ := by
  induction l₁ with
  | nil => simp [supSize]
  | cons q rest ih =>
    simp only [supSize, List.foldr]
    refine max_le ?_ ?_
    · exact psize_le_supSize (h q (by simp))
    · exact ih (fun x hx => h x (by simp [hx]))

/-- `repList n l` is `l` concatenated `n` times, mirroring the Go loop
`for i := uint32(0); i < max; i++ { g = append(g, p...) }`. -/
def repList (n : ℕ) (l : List Part) : List Part :=
  match n with
  | 0 => []
  | n + 1 => l ++ repList n l

theorem mem_repList {x : Part} {n : ℕ} {l : List Part} (h : x ∈ repList n l) :
    x ∈ l := by
  induction n with
  | zero => cases h
  | succ n ih =>
    simp only [repList, List.mem_append] at h
    rcases h with h | h
    · exact h
    · exact ih h

/-- Exchange the entries of `l` at positions `i` and `j`
(`p.parts[i], p.parts[j] = p.parts[j], p.parts[i]`); out-of-range positions
leave the list unchanged (they never occur on the paths the code reaches). -/
def listSwap {α : Type*} (l : List α) (i j : ℕ) : List α :=
  match l[i]?, l[j]? with
  | some x, some y => (l.set i y).set j x
  | _, _ => l

/-- The Fisher–Yates pass of `shuffle.Append`: the draws `ds` are consumed
in order, the first at index `i = ds.length` going down to `i = 1`;
each step swaps positions `i` and `ds.head`. -/
def fyRun {α : Type*} : List ℕ → List α → List α
  | [], l => l
  | j :: rest, l => fyRun rest (listSwap l (rest.length + 1) j)

/-- Shift a tape of raw draws past its first `n` entries. -/
def shift (tape : ℕ → ℕ) (n : ℕ) : ℕ → ℕ := fun k => tape (k + n)

/-- The list of Fisher–Yates draws made by `shuffle.Append` on `n` parts:
`j := internal.RandN(i + 1)` for `i` from `n - 1` down to `1`. -/
def shuffleDraws (n : ℕ) (tape : ℕ → ℕ) : List ℕ :=
  match n with
  | 0 => []
  | 1 => []
  | n + 2 => RandN (n + 2) (tape 0) :: shuffleDraws (n + 1) (shift tape 1)

theorem mem_listSwap {α : Type*} {x : α} {l : List α} {i j : ℕ}
    (h : x ∈ listSwap l i j) : x ∈ l := by
  unfold listSwap at h
  rcases hi : l[i]? with _ | xi <;> rcases hj : l[j]? with _ | xj <;>
      simp only [hi, hj] at h
  · exact h
  · exact h
  · exact h
  · rcases List.mem_or_eq_of_mem_set h with h' | rfl
    · rcases List.mem_or_eq_of_mem_set h' with h'' | rfl
      · exact h''
      · exact List.getElem?_mem hj
    · exact List.getElem?_mem hi

theorem mem_fyRun {α : Type*} {x : α} {ds : List ℕ} {l : List α}
    (h : x ∈ fyRun ds l) : x ∈ l := by
  induction ds generalizing l with
  | nil => exact h
  | cons j rest ih => exact mem_listSwap (ih h)

mutual

/-- `Append(b)` of a `Part`, reading raw 64-bit draws from `tape`.  On
success it returns the extended buffer and the number of raw draws consumed;
`none` models a Go panic (index out of range on an empty alphabet). -/
def Append : Part → (ℕ → ℕ) → List ℕ → Option (List ℕ × ℕ)
  | Part.nullpart, _, b => some (b, 0)
  | Part.gen parts, tape, b => appendAll parts tape b
  | Part.literal s, _, b => some (b ++ s, 0)
  | Part.group parts, tape, b => appendAll parts tape b
  | Part.repeatp parts mn maxr, tape, b =>
    (appendAll (repList ((RandN maxr (tape 0) + mn) % M32) parts)
        (shift tape 1) b).map (fun r => (r.1, r.2 + 1))
  | Part.potentially50 part, tape, b =>
    if tape 0 % M64 % 2 = 1 then
      (Append part (shift tape 1) b).map (fun r => (r.1, r.2 + 1))
    else
      some (b, 1)
  | Part.potentiallyP part percent, tape, b =>
    if RandFloat64 (tape 0) ≤ percent then
      (Append part (shift tape 1) b).map (fun r => (r.1, r.2 + 1))
    else
      some (b, 1)
  | Part.anyOf parts, tape, b =>
    if h : RandN parts.length (tape 0) < parts.length then
      (Append (parts.get ⟨RandN parts.length (tape 0), h⟩)
          (shift tape 1) b).map (fun r => (r.1, r.2 + 1))
    else
      none
  | Part.anyOfString alphabet, tape, b =>
    if h : RandN alphabet.length (tape 0) < alphabet.length then
      some (b ++ alphabet.get ⟨RandN alphabet.length (tape 0), h⟩, 1)
    else
      none
  | Part.anyOfByte alphabet, tape, b =>
    if h : RandN alphabet.length (tape 0) < alphabet.length then
      some (b ++ [alphabet.get ⟨RandN alphabet.length (tape 0), h⟩], 1)
    else
      none
  | Part.anyOfRune alphabet, tape, b =>
    if h : RandN alphabet.length (tape 0) < alphabet.length then
      some (b ++ utf8Encode (alphabet.get ⟨RandN alphabet.length (tape 0), h⟩), 1)
    else
      none
  | Part.shuffle parts, tape, b =>
    if parts.length = 0 then none
    else
      (appendAll (fyRun (shuffleDraws parts.length tape) parts)
          (shift tape (parts.length - 1)) b).map
        (fun r => (r.1, r.2 + (parts.length - 1)))
  | Part.sequence start mx width curr, _, b =>
    some (appendInt b (seqStep start mx curr) width, 0)
termination_by p _ _ => (psize p, 0)
decreasing_by
  all_goals simp_wf
  all_goals simp only [psize]
  all_goals refine Prod.Lex.left _ _ ?_
  all_goals first
    | omega
    | exact supSize_lt_one_add_lsize parts
    | exact lt_of_le_of_lt (supSize_le_of_subset (fun x hx => mem_repList hx))
        (supSize_lt_one_add_lsize parts)
    | exact lt_of_le_of_lt (supSize_le_of_subset (fun x hx => mem_fyRun hx))
        (supSize_lt_one_add_lsize parts)
    | (have h1 := psize_le_supSize (List.get_mem parts _ h)
       have h2 := supSize_lt_one_add_lsize parts
       simp only [List.get_eq_getElem] at h1
       omega)

/-- Append each part of a list in order, threading the buffer and the tape
(the loop `for _, p := range parts { b = p.Append(b) }`). -/
def appendAll : List Part → (ℕ → ℕ) → List ℕ → Option (List ℕ × ℕ)
  | [], _, b => some (b, 0)
  | p :: rest, tape, b =>
    match Append p tape b with
    | none => none
    | some (b₁, u₁) =>
      match appendAll rest (shift tape u₁) b₁ with
      | none => none
      | some (b₂, u₂) => some (b₂, u₁ + u₂)
termination_by l _ _ => (supSize l, l.length + 1)
decreasing_by
  · rcases Nat.lt_or_ge (psize p) (supSize (p :: rest)) with h | h
    · exact Prod.Lex.left _ _ h
    · have h' := psize_le_supSize (p := p) (l := p :: rest) (List.mem_cons_self p rest)
      have heq : psize p = supSize (p :: rest) := le_antisymm h' h
      rw [heq]
      exact Prod.Lex.right _ (by omega)
  · rcases Nat.lt_or_ge (supSize rest) (supSize (p :: rest)) with h | h
    · exact Prod.Lex.left _ _ h
    · have h' : supSize rest ≤ supSize (p :: rest) :=
        supSize_le_of_subset (fun x hx => List.mem_cons_of_mem p hx)
      have heq : supSize rest = supSize (p :: rest) := le_antisymm h' h
      rw [heq]
      exact Prod.Lex.right _ (by simp [List.length_cons])

end

@[simp] theorem Append_nullpart (tape : ℕ → ℕ) (b : List ℕ) :
    Append Part.nullpart tape b = some (b, 0) := by
  simp [Append]

@[simp] theorem Append_gen (parts : List Part) (tape : ℕ → ℕ) (b : List ℕ) :
    Append (Part.gen parts) tape b = appendAll parts tape b := by
  simp [Append]

@[simp] theorem Append_literal (s : List ℕ) (tape : ℕ → ℕ) (b : List ℕ) :
    Append (Part.literal s) tape b = some (b ++ s, 0) := by
  simp [Append]

@[simp] theorem Append_group (parts : List Part) (tape : ℕ → ℕ) (b : List ℕ) :
    Append (Part.group parts) tape b = appendAll parts tape b := by
  simp [Append]

@[simp] theorem Append_repeatp (parts : List Part) (mn maxr : ℕ)
    (tape : ℕ → ℕ) (b : List ℕ) :
    Append (Part.repeatp parts mn maxr) tape b =
      (appendAll (repList ((RandN maxr (tape 0) + mn) % M32) parts)
          (shift tape 1) b).map (fun r => (r.1, r.2 + 1)) := by
  simp [Append]

@[simp] theorem Append_potentially50 (part : Part) (tape : ℕ → ℕ) (b : List ℕ) :
    Append (Part.potentially50 part) tape b =
      if tape 0 % M64 % 2 = 1 then
        (Append part (shift tape 1) b).map (fun r => (r.1, r.2 + 1))
      else
        some (b, 1) := by
  rw [Append]

@[simp] theorem Append_potentiallyP (part : Part) (percent : ℚ)
    (tape : ℕ → ℕ) (b : List ℕ) :
    Append (Part.potentiallyP part percent) tape b =
      if RandFloat64 (tape 0) ≤ percent then
        (Append part (shift tape 1) b).map (fun r => (r.1, r.2 + 1))
      else
        some (b, 1) := by
  rw [Append]

@[simp] theorem Append_anyOf (parts : List Part) (tape : ℕ → ℕ) (b : List ℕ) :
    Append (Part.anyOf parts) tape b =
      if h : RandN parts.length (tape 0) < parts.length then
        (Append (parts.get ⟨RandN parts.length (tape 0), h⟩)
            (shift tape 1) b).map (fun r => (r.1, r.2 + 1))
      else
        none := by
  rw [Append]

@[simp] theorem Append_anyOfString (alphabet : List (List ℕ))
    (tape : ℕ → ℕ) (b : List ℕ) :
    Append (Part.anyOfString alphabet) tape b =
      if h : RandN alphabet.length (tape 0) < alphabet.length then
        some (b ++ alphabet.get ⟨RandN alphabet.length (tape 0), h⟩, 1)
      else
        none := by
  rw [Append]

@[simp] theorem Append_anyOfByte (alphabet : List ℕ) (tape : ℕ → ℕ) (b : List ℕ) :
    Append (Part.anyOfByte alphabet) tape b =
      if h : RandN alphabet.length (tape 0) < alphabet.length then
        some (b ++ [alphabet.get ⟨RandN alphabet.length (tape 0), h⟩], 1)
      else
        none := by
  rw [Append]

@[simp] theorem Append_anyOfRune (alphabet : List ℕ) (tape : ℕ → ℕ) (b : List ℕ) :
    Append (Part.anyOfRune alphabet) tape b =
      if h : RandN alphabet.length (tape 0) < alphabet.length then
        some (b ++ utf8Encode (alphabet.get ⟨RandN alphabet.length (tape 0), h⟩), 1)
      else
        none := by
  rw [Append]

@[simp] theorem Append_shuffle (parts : List Part) (tape : ℕ → ℕ) (b : List ℕ) :
    Append (Part.shuffle parts) tape b =
      if parts.length = 0 then none
      else
        (appendAll (fyRun (shuffleDraws parts.length tape) parts)
            (shift tape (parts.length - 1)) b).map
          (fun r => (r.1, r.2 + (parts.length - 1))) := by
  rw [Append]

@[simp] theorem Append_sequence (start mx : ℕ) (width : ℤ) (curr : ℕ)
    (tape : ℕ → ℕ) (b : List ℕ) :
    Append (Part.sequence start mx width curr) tape b =
      some (appendInt b (seqStep start mx curr) width, 0) := by
  rw [Append]

@[simp] theorem appendAll_nil (tape : ℕ → ℕ) (b : List ℕ) :
    appendAll [] tape b = some (b, 0) := by
  simp [appendAll]

@[simp] theorem appendAll_cons (p : Part) (rest : List Part)
    (tape : ℕ → ℕ) (b : List ℕ) :
    appendAll (p :: rest) tape b =
      match Append p tape b with
      | none => none
      | some (b₁, u₁) =>
        match appendAll rest (shift tape u₁) b₁ with
        | none => none
        | some (b₂, u₂) => some (b₂, u₁ + u₂) := by
  rw [appendAll]

/-- The flattening pass of `New`: skip `nullpart`s, splice the children of
`group`-typed values, keep every other value as-is. -/
def flattenParts : List Part → List Part
  | [] => []
  | Part.nullpart :: rest => flattenParts rest
  | Part.group v :: rest => v ++ flattenParts rest
  | v :: rest => v :: flattenParts rest

/-- `New(p...)`: a generator over the flattened argument list. -/
def New (p : List Part) : Part := Part.gen (flattenParts p)

/-- `Group(p...)`: a group of one is just the part. -/
def Group (p : List Part) : Part :=
  match p with
  | [x] => x
  | l => Part.group l

/-- `Literal(s)`. -/
def Literal (s : List ℕ) : Part := Part.literal s

/-- `Repeat(min, max, p...)`: panics (`none`) when `max == 0` or `max < min`;
a constant repeat is a `group`; `min == 0, max == 1` is an optional
(`potentially50`); otherwise a `repeat` node storing `maxr = max - min + 1`
(computed in `uint32` arithmetic). -/
def Repeat (mn mx : ℕ) (p : List Part) : Option Part :=
  if mx = 0 then none
  else if mx < mn then none
  else if 0 < mn ∧ mn = mx then some (Part.group (repList mx p))
  else if mn = 0 ∧ mx = 1 then some (Part.potentially50 (Group p))
  else some (Part.repeatp p mn ((mx - mn + 1) % M32))

/-- `Potentially(c, p)`: panics (`none`) when `c < 0`; `c == 0` is a
`nullpart`; `c >= 1` is `p` itself; `c == 0.5` is the one-bit fast path;
otherwise a `potentiallyP` node storing `c`. -/
def Potentially (c : ℚ) (p : Part) : Option Part :=
  if c < 0 then none
  else if c = 0 then some Part.nullpart
  else if 1 ≤ c then some p
  else if c = 1 / 2 then some (Part.potentially50 p)
  else some (Part.potentiallyP p c)

/-- `OneOf(p...)`: one part is just the part. -/
def OneOf (p : List Part) : Part :=
  match p with
  | [x] => x
  | l => Part.anyOf l

/-- `OneOfString(s)`. -/
def OneOfString (s : List (List ℕ)) : Part := Part.anyOfString s

/-- `OneOfByte(b)`. -/
def OneOfByte (b : List ℕ) : Part := Part.anyOfByte b

/-- `OneOfRune(r)`. -/
def OneOfRune (r : List ℕ) : Part := Part.anyOfRune r

/-- `Shuffle(p...)`. -/
def Shuffle (p : List Part) : Part := Part.shuffle p

/-- `Sequence(start, max, width)`: panics (`none`) when `max < start`;
otherwise the counter starts at `start - 1` (with `uint64` wraparound). -/
def Sequence (start mx : ℕ) (width : ℤ) : Option Part :=
  if mx < start then none
  else some (Part.sequence start mx width (seqInit start))

mutual

/-- Well-formedness of a tree of parts: every choice alphabet and every
shuffle child list is non-empty (the Go constructors do not enforce this). -/
def WFb : Part → Bool
  | Part.nullpart => true
  | Part.gen l => WFl l
  | Part.literal _ => true
  | Part.group l => WFl l
  | Part.repeatp l _ _ => WFl l
  | Part.potentially50 p => WFb p
  | Part.potentiallyP p _ => WFb p
  | Part.anyOf l => !l.isEmpty && WFl l
  | Part.anyOfString a => !a.isEmpty
  | Part.anyOfByte a => !a.isEmpty
  | Part.anyOfRune a => !a.isEmpty
  | Part.shuffle l => !l.isEmpty && WFl l
  | Part.sequence _ _ _ _ => true

/-- Well-formedness of a list of parts. -/
def WFl : List Part → Bool
  | [] => true
  | p :: rest => WFb p && WFl rest

end

theorem RandN_lt {n : ℕ} (r : ℕ) (h : 0 < n) : RandN n r < n := by
  have h2 : r % M64 < M64 := Nat.mod_lt _ (by norm_num [M64])
  have h1 : n * (r % M64) / M64 < n :=
    Nat.div_lt_of_lt_mul (by rw [mul_comm M64 n]; exact mul_lt_mul_of_pos_left h2 h)
  exact lt_of_le_of_lt (Nat.mod_le _ _) h1

theorem WFl_mem {l : List Part} (h : WFl l = true) {p : Part} (hp : p ∈ l) :
    WFb p = true := by
  induction l with
  | nil => cases hp
  | cons q rest ih =>
    simp only [WFl, Bool.and_eq_true] at h
    rcases List.mem_cons.mp hp with rfl | hp
    · exact h.1
    · exact ih h.2 hp

/-- Claim C1: for a `Sequence(start, max, width)` node with `max ≥ start`,
construction initializes the shared counter to `start - 1` (with 64-bit
wrapping when `start = 0`); each `Append` reads the counter as `last`,
computes `curr = last + 1`, resets `curr` to `start` whenever `curr > max`
or `curr < start` (the latter catching 64-bit wraparound, including a
counter holding `2^64 - 1`), and appends `curr` zero-padded to `width`;
the first invocation yields `start`, and the invocation after `max` has
been emitted yields `start` again. -/
theorem C1_sequence_counter (start mx : ℕ) (width : ℤ)
    (hsm : start ≤ mx) (hm : mx < M64) :
    Sequence start mx width = some (Part.sequence start mx width (seqInit start)) ∧
    (∀ tape b curr,
      Append (Part.sequence start mx width curr) tape b =
        some (appendInt b (seqStep start mx curr) width, 0)) ∧
    seqStep start mx (seqInit start) = start ∧
    (∀ last, start ≤ last → last < mx → seqStep start mx last = last + 1) ∧
    seqStep start mx mx = start ∧
    seqStep start mx (M64 - 1) = start := by
  have eM : M64 = 18446744073709551616 := by norm_num [M64]
  refine ⟨?_, ?_, ?_, ?_, ?_, ?_⟩
  · simp [Sequence, Nat.not_lt.mpr hsm]
  · intro tape b curr
    exact Append_sequence start mx width curr tape b
  · unfold seqStep seqInit
    rw [eM] at hm ⊢
    split_ifs with h <;> omega
  · intro last h1 h2
    unfold seqStep
    rw [eM] at hm ⊢
    split_ifs with h <;> omega
  · unfold seqStep
    rw [eM] at hm ⊢
    split_ifs with h <;> omega
  · unfold seqStep
    rw [eM] at hm ⊢
    split_ifs with h <;> omega

/-- Witness for C1 at `Sequence(0, 100, 4)`: construction succeeds, the
first invocation yields `0` rendered as `"0000"`, and the step function
wraps back to `0` both after `100` and from a counter holding `2^64 - 1`. -/
theorem C1_sequence_counter_witness :
    Sequence 0 100 4 = some (Part.sequence 0 100 4 (seqInit 0)) ∧
    seqStep 0 100 (seqInit 0) = 0 ∧
    seqStep 0 100 100 = 0 ∧
    seqStep 0 100 (M64 - 1) = 0 ∧
    Append (Part.sequence 0 100 4 (seqInit 0)) (fun _ => 0) [] =
      some ([48, 48, 48, 48], 0) := by
  obtain ⟨h1, h2, h3, h4, h5, h6⟩ :=
    C1_sequence_counter 0 100 4 (by norm_num) (by norm_num [M64])
  refine ⟨h1, h3, h5, h6, ?_⟩
  rw [h2 (fun _ => 0) [] (seqInit 0), h3]
  decide

theorem shift_zero (tape : ℕ → ℕ) : shift tape 0 = tape := rfl

theorem shift_shift (tape : ℕ → ℕ) (a b : ℕ) :
    shift (shift tape a) b = shift tape (a + b) := by
  funext k
  simp only [shift]
  congr 1
  omega

theorem appendAll_append (l₁ l₂ : List Part) (tape : ℕ → ℕ) (b : List ℕ) :
    appendAll (l₁ ++ l₂) tape b =
      match appendAll l₁ tape b with
      | none => none
      | some (b₁, u₁) =>
        match appendAll l₂ (shift tape u₁) b₁ with
        | none => none
        | some (b₂, u₂) => some (b₂, u₁ + u₂) := by
  induction l₁ generalizing tape b with
  | nil =>
    simp only [List.nil_append, appendAll_nil, shift_zero]
    cases h : appendAll l₂ tape b with
    | none => rfl
    | some r => cases r; simp
  | cons p rest ih =>
    simp only [List.cons_append, appendAll_cons]
    cases hp : Append p tape b with
    | none => rfl
    | some r₁ =>
      rcases r₁ with ⟨b₁, u₁⟩
      dsimp only
      rw [ih]
      cases hr : appendAll rest (shift tape u₁) b₁ with
      | none => rfl
      | some r₂ =>
        rcases r₂ with ⟨b₂, u₂⟩
        dsimp only
        rw [shift_shift]
        cases hl : appendAll l₂ (shift tape (u₁ + u₂)) b₂ with
        | none => rfl
        | some r₃ =>
          rcases r₃ with ⟨b₃, u₃⟩
          simp [Nat.add_assoc]

/-- `iterAppend n l tape b`: append the part list `l` to `b` exactly `n`
times in order, threading the tape. -/
def iterAppend : ℕ → List Part → (ℕ → ℕ) → List ℕ → Option (List ℕ × ℕ)
  | 0, _, _, b => some (b, 0)
  | n + 1, l, tape, b =>
    match appendAll l tape b with
    | none => none
    | some (b₁, u₁) =>
      match iterAppend n l (shift tape u₁) b₁ with
      | none => none
      | some (b₂, u₂) => some (b₂, u₁ + u₂)

theorem appendAll_repList (n : ℕ) (l : List Part) (tape : ℕ → ℕ) (b : List ℕ) :
    appendAll (repList n l) tape b = iterAppend n l tape b := by
  induction n generalizing tape b with
  | zero => simp [repList, iterAppend]
  | succ n ih =>
    show appendAll (l ++ repList n l) tape b = _
    rw [appendAll_append]
    simp only [iterAppend]
    cases h : appendAll l tape b with
    | none => rfl
    | some r =>
      rcases r with ⟨b₁, u₁⟩
      dsimp only
      rw [ih]

/-- Claim C3: for every `k ≥ 1` and child list `p`, `Repeat(k, k, p...)` is
exactly a fixed `Group` containing `k` concatenated copies of the child
sequence, and for every tape and buffer its `Append` equals appending the
children of `p` in order exactly `k` times, the group node itself consuming
no randomness. -/
theorem C3_repeat_const_is_group (k : ℕ) (p : List Part) (hk : 1 ≤ k) :
    Repeat k k p = some (Part.group (repList k p)) ∧
    (∀ tape b, Append (Part.group (repList k p)) tape b = iterAppend k p tape b) := by
  constructor
  · have h0 : ¬(k = 0) := by omega
    have h2 : 0 < k ∧ k = k := ⟨hk, rfl⟩
    simp [Repeat, h0, Nat.lt_irrefl, h2]
  · intro tape b
    rw [Append_group, appendAll_repList]

/-- Witness for C3 at `Repeat(5, 5, Literal("o"))`: the constructor returns
the 5-fold group, and appending it to the empty buffer materializes
`"ooooo"` while consuming no random draws. -/
theorem C3_repeat_const_is_group_witness :
    Repeat 5 5 [Part.literal [111]] =
      some (Part.group (repList 5 [Part.literal [111]])) ∧
    Append (Part.group (repList 5 [Part.literal [111]])) (fun _ => 0) [] =
      some ([111, 111, 111, 111, 111], 0) := by
  obtain ⟨h1, h2⟩ := C3_repeat_const_is_group 5 [Part.literal [111]] (by norm_num)
  refine ⟨h1, ?_⟩
  rw [h2 (fun _ => 0) []]
  simp [iterAppend, appendAll_cons, appendAll_nil, Append_literal]

/-- Claim C5: `Potentially(c, p)` fails construction for `c < 0`; `c == 0`
yields a permanent no-op whose `Append` returns the buffer unchanged;
`c ≥ 1` yields `p` itself; `c == 0.5` decides inclusion by testing one
random bit; for any other `c` in `(0,1)` each `Append` includes `p`'s
output exactly when a fresh `uniformFloat64()` draw is `≤ c`, and appends
nothing otherwise. -/
theorem C5_potentially_dispatch (c : ℚ) (p : Part) :
    (c < 0 → Potentially c p = none) ∧
    (Potentially 0 p = some Part.nullpart ∧
      ∀ tape b, Append Part.nullpart tape b = some (b, 0)) ∧
    (1 ≤ c → Potentially c p = some p) ∧
    (c = 1 / 2 → Potentially c p = some (Part.potentially50 p)) ∧
    (∀ tape b, Append (Part.potentially50 p) tape b =
      if tape 0 % M64 % 2 = 1 then
        (Append p (shift tape 1) b).map (fun r => (r.1, r.2 + 1))
      else some (b, 1)) ∧
    (0 < c → c < 1 → c ≠ 1 / 2 → Potentially c p = some (Part.potentiallyP p c)) ∧
    (∀ tape b, Append (Part.potentiallyP p c) tape b =
      if RandFloat64 (tape 0) ≤ c then
        (Append p (shift tape 1) b).map (fun r => (r.1, r.2 + 1))
      else some (b, 1)) := by
  refine ⟨?_, ⟨?_, ?_⟩, ?_, ?_, ?_, ?_, ?_⟩
  · intro h
    simp [Potentially, h]
  · norm_num [Potentially]
  · intro tape b
    exact Append_nullpart tape b
  · intro h
    have h1 : ¬(c < 0) := by linarith
    have h2 : ¬(c = 0) := by intro h'; rw [h'] at h; norm_num at h
    simp [Potentially, h1, h2, h]
  · intro h
    subst h
    norm_num [Potentially]
  · intro tape b
    exact Append_potentially50 p tape b
  · intro hc0 hc1 hc2
    have h1 : ¬(c < 0) := by linarith
    have h2 : ¬(c = 0) := by intro h'; rw [h'] at hc0; norm_num at hc0
    have h3 : ¬(1 ≤ c) := by linarith
    have hc2' : ¬(c = 2⁻¹) := by
      intro h'
      exact hc2 (by rw [h']; norm_num)
    simp [Potentially, h1, h2, h3, hc2']
  · intro tape b
    exact Append_potentiallyP p c tape b

/-- Witness for C5 at `c = 3/4` and `p = Literal("o")`: construction yields
a `potentiallyP` node, an `Append` whose float draw is `0 ≤ 3/4` includes
the child's output, and the degenerate constructions for `c = 0`, `c = 1`
and `c = 1/2` are as claimed. -/
theorem C5_potentially_dispatch_witness :
    Potentially (3 / 4) (Part.literal [111]) =
      some (Part.potentiallyP (Part.literal [111]) (3 / 4)) ∧
    Append (Part.potentiallyP (Part.literal [111]) (3 / 4)) (fun _ => 0) [] =
      some ([111], 1) ∧
    Potentially 0 (Part.literal [111]) = some Part.nullpart ∧
    Potentially 1 (Part.literal [111]) = some (Part.literal [111]) ∧
    Potentially (1 / 2) (Part.literal [111]) =
      some (Part.potentially50 (Part.literal [111])) := by
  obtain ⟨h1, ⟨h2, h3⟩, h4, h5, h6, h7, h8⟩ :=
    C5_potentially_dispatch (3 / 4) (Part.literal [111])
  obtain ⟨-, -, h4', -, -, -, -⟩ := C5_potentially_dispatch 1 (Part.literal [111])
  obtain ⟨-, -, -, h5', -, -, -⟩ :=
    C5_potentially_dispatch (1 / 2) (Part.literal [111])
  refine ⟨h7 (by norm_num) (by norm_num) (by norm_num), ?_, h2,
    h4' le_rfl, h5' rfl⟩
  rw [h8 (fun _ => 0) []]
  norm_num [RandFloat64, M64]

/-- Claim C6 (amended): construction fails exactly on the listed
conditions — `Repeat` iff `max = 0` or `max < min`, `Potentially` iff its
probability is negative, `Sequence` iff `max < start` — and the remaining
constructors are total; however an empty-alphabet choice or shuffle node
constructs successfully and its error surfaces only at generation time. -/
theorem C6_construction_failures (mn mx : ℕ) (c : ℚ) (s m2 : ℕ) (w : ℤ)
    (p : List Part) (q : Part) :
    (Repeat mn mx p = none ↔ (mx = 0 ∨ mx < mn)) ∧
    (Potentially c q = none ↔ c < 0) ∧
    (Sequence s m2 w = none ↔ m2 < s) := by
  refine ⟨?_, ?_, ?_⟩
  · unfold Repeat
    split_ifs with h1 h2 h3 h4 <;> simp <;> omega
  · unfold Potentially
    split_ifs with h1 h2 h3 h4 <;> simp [h1]
  · unfold Sequence
    split_ifs with h1 <;> simp [h1]

/-- Counterexample to Claim C6 as stated: `OneOf` with an empty candidate
list does not fail at construction; the error is deferred to generation
time, where `Append` hits an out-of-range index (modelled as `none`). -/
theorem C6_deferred_error_counterexample :
    OneOf [] = Part.anyOf [] ∧
    Append (Part.anyOf []) (fun _ => 0) [] = none := by
  refine ⟨rfl, ?_⟩
  rw [Append_anyOf]
  simp

/-- Claim C9 (amended): `New` flattens exactly the argument values of the
runtime `group` type — whichever constructor produced them, including
`Repeat(k, k, ...)` — and drops `nullpart` no-ops; argument values of any
other runtime type are kept as-is. -/
theorem C9_new_flattens_groups (v : Part) (rest args g : List Part) :
    New args = Part.gen (flattenParts args) ∧
    flattenParts [] = [] ∧
    flattenParts (Part.nullpart :: rest) = flattenParts rest ∧
    flattenParts (Part.group g :: rest) = g ++ flattenParts rest ∧
    ((∀ l, v ≠ Part.group l) → v ≠ Part.nullpart →
      flattenParts (v :: rest) = v :: flattenParts rest) := by
  refine ⟨rfl, rfl, rfl, rfl, ?_⟩
  intro hg hn
  cases v with
  | nullpart => exact absurd rfl hn
  | group l => exact absurd rfl (hg l)
  | gen l => rfl
  | literal s => rfl
  | repeatp l a b => rfl
  | potentially50 p => rfl
  | potentiallyP p c => rfl
  | anyOf l => rfl
  | anyOfString a => rfl
  | anyOfByte a => rfl
  | anyOfRune a => rfl
  | shuffle l => rfl
  | sequence a b c d => rfl

/-- Witness for C9 (amended) on a kept node: a `literal` argument is neither
a `group` nor a `nullpart`, so `New` keeps it as-is. -/
theorem C9_new_flattens_groups_witness :
    New [Part.literal [97]] = Part.gen [Part.literal [97]] := by
  obtain ⟨h1, -, -, -, h5⟩ :=
    C9_new_flattens_groups (Part.literal [97]) [] [Part.literal [97]] []
  rw [h1, h5 (fun l => by simp) (by simp)]
  rfl

/-- Counterexample to Claim C9 as stated: `Repeat(2, 2, Literal("a"))`
returns a value of the runtime `group` type, and `New` flattens it into the
generator's child list instead of keeping it as-is. -/
theorem C9_repeat_flattened_counterexample :
    Repeat 2 2 [Part.literal [97]] =
      some (Part.group [Part.literal [97], Part.literal [97]]) ∧
    New [Part.group [Part.literal [97], Part.literal [97]]] =
      Part.gen [Part.literal [97], Part.literal [97]] ∧
    Part.gen [Part.literal [97], Part.literal [97]] ≠
      Part.gen [Part.group [Part.literal [97], Part.literal [97]]] := by
  refine ⟨?_, rfl, ?_⟩
  · norm_num [Repeat, repList]
  · intro h
    injection h with h'
    injection h' with h'' _
    cases h''

theorem isSome_map_of_isSome {α β : Type*} {x : Option α} (f : α → β)
    (h : x.isSome = true) : (x.map f).isSome = true := by
  rcases x with _ | v
  · simp at h
  · simp

theorem appendAll_isSome {l : List Part}
    (h : ∀ p ∈ l, ∀ tape b, (Append p tape b).isSome = true) :
    ∀ tape b, (appendAll l tape b).isSome = true := by
  induction l with
  | nil => intro tape b; simp
  | cons p rest ih =>
    intro tape b
    rw [appendAll_cons]
    have h1 := h p (by simp) tape b
    rcases hAp : Append p tape b with _ | r
    · rw [hAp] at h1; simp at h1
    · rcases r with ⟨b₁, u₁⟩
      dsimp only
      have h2 := ih (fun q hq => h q (by simp [hq])) (shift tape u₁) b₁
      rcases hAll : appendAll rest (shift tape u₁) b₁ with _ | r₂
      · rw [hAll] at h2; simp at h2
      · rcases r₂ with ⟨b₂, u₂⟩
        simp

theorem length_pos_of_not_isEmpty {α : Type*} {l : List α}
    (h : (!l.isEmpty) = true) : 0 < l.length := by
  cases l with
  | nil => simp at h
  | cons x rest => simp

theorem append_total (n : ℕ) : ∀ (p : Part), psize p ≤ n → WFb p = true →
    ∀ tape b, (Append p tape b).isSome = true := by
  induction n with
  | zero =>
    intro p hp
    exfalso
    cases p <;> simp [psize] at hp
  | succ n ih =>
    intro p hp hwf tape b
    have hsub : ∀ (parts : List Part), psize p = 1 + lsize parts →
        WFl parts = true →
        ∀ q ∈ parts, ∀ t c, (Append q t c).isSome = true := by
      intro parts hps hl q hq t c
      refine ih q ?_ (WFl_mem hl hq) t c
      have h1 := psize_le_supSize hq
      have h2 := supSize_lt_one_add_lsize parts
      omega
    cases p with
    | nullpart => simp
    | literal s => simp
    | sequence a b' w cv => simp
    | gen parts =>
      rw [Append_gen]
      simp only [WFb] at hwf
      exact appendAll_isSome (hsub parts (by simp [psize]) hwf) tape b
    | group parts =>
      rw [Append_group]
      simp only [WFb] at hwf
      exact appendAll_isSome (hsub parts (by simp [psize]) hwf) tape b
    | repeatp parts mn maxr =>
      rw [Append_repeatp]
      simp only [WFb] at hwf
      refine isSome_map_of_isSome _ ?_
      exact appendAll_isSome
        (fun q hq => hsub parts (by simp [psize]) hwf q (mem_repList hq))
        (shift tape 1) b
    | potentially50 part =>
      rw [Append_potentially50]
      simp only [WFb] at hwf
      split_ifs with hbit
      · refine isSome_map_of_isSome _ ?_
        exact ih part (by simp [psize] at hp ⊢; omega) hwf (shift tape 1) b
      · simp
    | potentiallyP part percent =>
      rw [Append_potentiallyP]
      simp only [WFb] at hwf
      split_ifs with hdraw
      · refine isSome_map_of_isSome _ ?_
        exact ih part (by simp [psize] at hp ⊢; omega) hwf (shift tape 1) b
      · simp
    | anyOf parts =>
      rw [Append_anyOf]
      simp only [WFb, Bool.and_eq_true] at hwf
      have hlen : 0 < parts.length := length_pos_of_not_isEmpty hwf.1
      rw [dif_pos (RandN_lt (tape 0) hlen)]
      refine isSome_map_of_isSome _ ?_
      exact hsub parts (by simp [psize]) hwf.2 _
        (List.get_mem parts _ (RandN_lt (tape 0) hlen)) (shift tape 1) b
    | anyOfString a =>
      rw [Append_anyOfString]
      simp only [WFb] at hwf
      rw [dif_pos (RandN_lt (tape 0) (length_pos_of_not_isEmpty hwf))]
      simp
    | anyOfByte a =>
      rw [Append_anyOfByte]
      simp only [WFb] at hwf
      rw [dif_pos (RandN_lt (tape 0) (length_pos_of_not_isEmpty hwf))]
      simp
    | anyOfRune a =>
      rw [Append_anyOfRune]
      simp only [WFb] at hwf
      rw [dif_pos (RandN_lt (tape 0) (length_pos_of_not_isEmpty hwf))]
      simp
    | shuffle parts =>
      rw [Append_shuffle]
      simp only [WFb, Bool.and_eq_true] at hwf
      have hlen : 0 < parts.length := length_pos_of_not_isEmpty hwf.1
      rw [if_neg (by omega)]
      refine isSome_map_of_isSome _ ?_
      exact appendAll_isSome
        (fun q hq => hsub parts (by simp [psize]) hwf.2 q (mem_fyRun hq))
        (shift tape (parts.length - 1)) b

/-- Claim C2 (amended): the Go constructors do not fail fast on empty
alphabets; instead, for every tree whose choice alphabets and shuffle child
lists are all non-empty (`WFb`), no error ever occurs during generation —
every `Append` code path succeeds for every random tape and buffer. -/
theorem C2_wf_generation_never_fails (p : Part) (hwf : WFb p = true)
    (tape : ℕ → ℕ) (b : List ℕ) : (Append p tape b).isSome = true :=
  append_total (psize p) p le_rfl hwf tape b

/-- Witness for C2 (amended) at `OneOfByte("AB")` nested under a generator:
the tree is well-formed and `Append` succeeds on an all-zero tape. -/
theorem C2_wf_generation_never_fails_witness :
    (Append (New [OneOfByte [65, 66]]) (fun _ => 0) []).isSome = true := by
  refine C2_wf_generation_never_fails (New [OneOfByte [65, 66]]) ?_ (fun _ => 0) []
  simp [New, OneOfByte, flattenParts, WFb, WFl]

/-- Counterexample to Claim C2 as stated: `OneOfByte` with an empty
alphabet constructs successfully (no fail-fast), and generation then
reaches an out-of-bounds index (modelled as `none`). -/
theorem C2_empty_alphabet_counterexample :
    OneOfByte [] = Part.anyOfByte [] ∧
    Append (Part.anyOfByte []) (fun _ => 0) [] = none := by
  refine ⟨rfl, ?_⟩
  rw [Append_anyOfByte]
  simp

theorem appendAll_prefix {l : List Part}
    (h : ∀ p ∈ l, ∀ tape b buf u, Append p tape b = some (buf, u) → b <+: buf) :
    ∀ tape b buf u, appendAll l tape b = some (buf, u) → b <+: buf := by
  induction l with
  | nil =>
    intro tape b buf u hh
    rw [appendAll_nil] at hh
    simp only [Option.some.injEq, Prod.mk.injEq] at hh
    rw [← hh.1]
  | cons p rest ih =>
    intro tape b buf u hh
    rw [appendAll_cons] at hh
    rcases hAp : Append p tape b with _ | r
    · rw [hAp] at hh; cases hh
    · rcases r with ⟨b₁, u₁⟩
      rw [hAp] at hh
      dsimp only at hh
      rcases hAll : appendAll rest (shift tape u₁) b₁ with _ | r₂
      · rw [hAll] at hh; cases hh
      · rcases r₂ with ⟨b₂, u₂⟩
        rw [hAll] at hh
        simp only [Option.some.injEq, Prod.mk.injEq] at hh
        have p1 : b <+: b₁ := h p (by simp) tape b b₁ u₁ hAp
        have p2 : b₁ <+: b₂ :=
          ih (fun q hq => h q (by simp [hq])) (shift tape u₁) b₁ b₂ u₂ hAll
        rw [← hh.1]
        exact p1.trans p2

theorem prefix_of_map_append {b buf : List ℕ} {u u' : ℕ}
    {x : Option (List ℕ × ℕ)}
    (hx : x.map (fun r => (r.1, r.2 + u')) = some (buf, u))
    (h : ∀ b₂ u₂, x = some (b₂, u₂) → b <+: b₂) : b <+: buf := by
  rcases x with _ | r
  · cases hx
  · rcases r with ⟨b₂, u₂⟩
    simp only [Option.map_some', Option.some.injEq, Prod.mk.injEq] at hx
    rw [← hx.1]
    exact h b₂ u₂ rfl

theorem append_prefix (n : ℕ) : ∀ (p : Part), psize p ≤ n →
    ∀ tape b buf u, Append p tape b = some (buf, u) → b <+: buf := by
  induction n with
  | zero =>
    intro p hp
    exfalso
    cases p <;> simp [psize] at hp
  | succ n ih =>
    intro p hp tape b buf u hh
    have hsub : ∀ (parts : List Part), psize p = 1 + lsize parts →
        ∀ q ∈ parts, ∀ t c d v, Append q t c = some (d, v) → c <+: d := by
      intro parts hps q hq t c d v hqe
      refine ih q ?_ t c d v hqe
      have h1 := psize_le_supSize hq
      have h2 := supSize_lt_one_add_lsize parts
      omega
    cases p with
    | nullpart =>
      rw [Append_nullpart] at hh
      simp only [Option.some.injEq, Prod.mk.injEq] at hh
      rw [← hh.1]
    | literal s =>
      rw [Append_literal] at hh
      simp only [Option.some.injEq, Prod.mk.injEq] at hh
      rw [← hh.1]
      exact List.prefix_append b s
    | sequence a b' w cv =>
      rw [Append_sequence] at hh
      simp only [Option.some.injEq, Prod.mk.injEq] at hh
      rw [← hh.1]
      unfold appendInt
      rw [List.append_assoc]
      exact List.prefix_append b _
    | gen parts =>
      rw [Append_gen] at hh
      exact appendAll_prefix (hsub parts (by simp [psize])) tape b buf u hh
    | group parts =>
      rw [Append_group] at hh
      exact appendAll_prefix (hsub parts (by simp [psize])) tape b buf u hh
    | repeatp parts mn maxr =>
      rw [Append_repeatp] at hh
      refine prefix_of_map_append hh ?_
      intro b₂ u₂ he
      exact appendAll_prefix
        (fun q hq => hsub parts (by simp [psize]) q (mem_repList hq))
        (shift tape 1) b b₂ u₂ he
    | potentially50 part =>
      rw [Append_potentially50] at hh
      by_cases hbit : tape 0 % M64 % 2 = 1
      · rw [if_pos hbit] at hh
        refine prefix_of_map_append hh ?_
        intro b₂ u₂ he
        exact ih part (by simp [psize] at hp ⊢; omega) (shift tape 1) b b₂ u₂ he
      · rw [if_neg hbit] at hh
        simp only [Option.some.injEq, Prod.mk.injEq] at hh
        rw [← hh.1]
    | potentiallyP part percent =>
      rw [Append_potentiallyP] at hh
      by_cases hdraw : RandFloat64 (tape 0) ≤ percent
      · rw [if_pos hdraw] at hh
        refine prefix_of_map_append hh ?_
        intro b₂ u₂ he
        exact ih part (by simp [psize] at hp ⊢; omega) (shift tape 1) b b₂ u₂ he
      · rw [if_neg hdraw] at hh
        simp only [Option.some.injEq, Prod.mk.injEq] at hh
        rw [← hh.1]
    | anyOf parts =>
      rw [Append_anyOf] at hh
      by_cases hlt : RandN parts.length (tape 0) < parts.length
      · rw [dif_pos hlt] at hh
        refine prefix_of_map_append hh ?_
        intro b₂ u₂ he
        exact hsub parts (by simp [psize]) _ (List.get_mem parts _ hlt)
          (shift tape 1) b b₂ u₂ he
      · rw [dif_neg hlt] at hh
        cases hh
    | anyOfString a =>
      rw [Append_anyOfString] at hh
      by_cases hlt : RandN a.length (tape 0) < a.length
      · rw [dif_pos hlt] at hh
        simp only [Option.some.injEq, Prod.mk.injEq] at hh
        rw [← hh.1]
        exact List.prefix_append b _
      · rw [dif_neg hlt] at hh
        cases hh
    | anyOfByte a =>
      rw [Append_anyOfByte] at hh
      by_cases hlt : RandN a.length (tape 0) < a.length
      · rw [dif_pos hlt] at hh
        simp only [Option.some.injEq, Prod.mk.injEq] at hh
        rw [← hh.1]
        exact List.prefix_append b _
      · rw [dif_neg hlt] at hh
        cases hh
    | anyOfRune a =>
      rw [Append_anyOfRune] at hh
      by_cases hlt : RandN a.length (tape 0) < a.length
      · rw [dif_pos hlt] at hh
        simp only [Option.some.injEq, Prod.mk.injEq] at hh
        rw [← hh.1]
        exact List.prefix_append b _
      · rw [dif_neg hlt] at hh
        cases hh
    | shuffle parts =>
      rw [Append_shuffle] at hh
      by_cases hlen : parts.length = 0
      · rw [if_pos hlen] at hh
        cases hh
      · rw [if_neg hlen] at hh
        refine prefix_of_map_append hh ?_
        intro b₂ u₂ he
        exact appendAll_prefix
          (fun q hq => hsub parts (by simp [psize]) q (mem_fyRun hq))
          (shift tape (parts.length - 1)) b b₂ u₂ he

/-- Claim C10: for every `Part` and every input buffer `b`, a successful
`Append(b)` returns a buffer whose first `len(b)` bytes equal `b`
unchanged, with the part's generated output placed after them, so repeated
`Append` accumulates. -/
theorem C10_append_frames (p : Part) (tape : ℕ → ℕ) (b buf : List ℕ) (u : ℕ)
    (h : Append p tape b = some (buf, u)) : b <+: buf :=
  append_prefix (psize p) p le_rfl tape b buf u h

/-- Witness for C10: the one-literal generator `New(Literal("o"))` appended
to `"hello"` frames it as a prefix, and appending again to the result
(`"helloo"`) frames that as well, giving `"hellooo"`. -/
theorem C10_append_frames_witness :
    [104, 101, 108, 108, 111] <+: [104, 101, 108, 108, 111, 111] ∧
    [104, 101, 108, 108, 111, 111] <+: [104, 101, 108, 108, 111, 111, 111] := by
  constructor
  · exact C10_append_frames (New [Part.literal [111]]) (fun _ => 0)
      [104, 101, 108, 108, 111] [104, 101, 108, 108, 111, 111] 0
      (by simp [New, flattenParts])
  · exact C10_append_frames (New [Part.literal [111]]) (fun _ => 0)
      [104, 101, 108, 108, 111, 111] [104, 101, 108, 108, 111, 111, 111] 0
      (by simp [New, flattenParts])

/-- Ceiling division on naturals. -/
def cdiv (a n : ℕ) : ℕ := (a + n - 1) / n

theorem cdiv_le_iff {n : ℕ} (h : 0 < n) (a r : ℕ) : cdiv a n ≤ r ↔ a ≤ n * r := by
  unfold cdiv
  rw [Nat.div_le_iff_le_mul_add_pred h]
  omega

theorem le_mul_cdiv {n : ℕ} (h : 0 < n) (a : ℕ) : a ≤ n * cdiv a n :=
  (cdiv_le_iff h a (cdiv a n)).mp le_rfl

theorem cdiv_mono {n a b : ℕ} (hab : a ≤ b) : cdiv a n ≤ cdiv b n :=
  Nat.div_le_div_right (by omega)

theorem cdiv_add_mul {n : ℕ} (h : 0 < n) (a q : ℕ) :
    cdiv (a + n * q) n = cdiv a n + q := by
  unfold cdiv
  rw [show a + n * q + n - 1 = a + n - 1 + n * q by omega,
    Nat.add_mul_div_left _ _ h]

theorem cdiv_le_div_add_one {n : ℕ} (h : 0 < n) (a : ℕ) :
    cdiv a n ≤ a / n + 1 := by
  rw [cdiv_le_iff h, Nat.mul_add, Nat.mul_one]
  have h1 := Nat.div_add_mod a n
  have h2 := Nat.mod_lt a h
  omega

/-- The number of raw 64-bit values `r` for which `RandN n r` returns `k`. -/
def countDraws (n k : ℕ) : ℕ :=
  ((Finset.range M64).filter (fun r => RandN n r = k)).card

theorem RandN_eq_iff {n k : ℕ} (h0 : 0 < n) (hn : n < M32) (_hk : k < n)
    {r : ℕ} (hr : r < M64) :
    RandN n r = k ↔ cdiv (k * M64) n ≤ r ∧ r < cdiv ((k + 1) * M64) n := by
  have hM : (0 : ℕ) < M64 := by norm_num [M64]
  have hq : n * r / M64 < n :=
    Nat.div_lt_of_lt_mul (by rw [mul_comm M64 n]; exact mul_lt_mul_of_pos_left hr h0)
  unfold RandN
  rw [Nat.mod_eq_of_lt hr, Nat.mod_eq_of_lt (lt_trans hq hn)]
  have hA : k ≤ n * r / M64 ↔ k * M64 ≤ n * r := Nat.le_div_iff_mul_le hM
  have hB : n * r / M64 < k + 1 ↔ n * r < (k + 1) * M64 := Nat.div_lt_iff_lt_mul hM
  have hC : cdiv (k * M64) n ≤ r ↔ k * M64 ≤ n * r := cdiv_le_iff h0 _ r
  have hD : cdiv ((k + 1) * M64) n ≤ r ↔ (k + 1) * M64 ≤ n * r := cdiv_le_iff h0 _ r
  constructor
  · intro he
    have h1 : k * M64 ≤ n * r := hA.mp (by omega)
    have h2 : n * r < (k + 1) * M64 := hB.mp (by omega)
    refine ⟨hC.mpr h1, ?_⟩
    by_contra hc
    have h3 := hD.mp (by omega)
    omega
  · rintro ⟨h1, h2⟩
    have h3 : k * M64 ≤ n * r := hC.mp h1
    have h4 : n * r < (k + 1) * M64 := by
      by_contra hc
      have h5 := hD.mpr (by omega)
      omega
    have h5 := hA.mpr h3
    have h6 := hB.mpr h4
    omega

theorem countDraws_eq {n k : ℕ} (h0 : 0 < n) (hn : n < M32) (hk : k < n) :
    countDraws n k = cdiv ((k + 1) * M64) n - cdiv (k * M64) n := by
  unfold countDraws
  have hsub : cdiv ((k + 1) * M64) n ≤ M64 := by
    rw [cdiv_le_iff h0]
    have h1 : (k + 1) * M64 ≤ n * M64 := Nat.mul_le_mul_right M64 (by omega)
    omega
  have hset : (Finset.range M64).filter (fun r => RandN n r = k) =
      Finset.Ico (cdiv (k * M64) n) (cdiv ((k + 1) * M64) n) := by
    ext r
    simp only [Finset.mem_filter, Finset.mem_range, Finset.mem_Ico]
    constructor
    · rintro ⟨hr, he⟩
      exact (RandN_eq_iff h0 hn hk hr).mp he
    · rintro ⟨h1, h2⟩
      have hr : r < M64 := lt_of_lt_of_le h2 hsub
      exact ⟨hr, (RandN_eq_iff h0 hn hk hr).mpr ⟨h1, h2⟩⟩
  rw [hset, Nat.card_Ico]

theorem countDraws_bounds {n k : ℕ} (h0 : 0 < n) (hn : n < M32) (hk : k < n) :
    M64 / n ≤ countDraws n k ∧ countDraws n k ≤ M64 / n + 1 := by
  rw [countDraws_eq h0 hn hk]
  have hmul : n * (M64 / n) ≤ M64 := by
    rw [mul_comm]
    exact Nat.div_mul_le_self M64 n
  have e1 : cdiv (k * M64) n + M64 / n ≤ cdiv ((k + 1) * M64) n := by
    have h1 : k * M64 + n * (M64 / n) ≤ (k + 1) * M64 := by
      have e : (k + 1) * M64 = k * M64 + M64 := by ring
      omega
    calc cdiv (k * M64) n + M64 / n
        = cdiv (k * M64 + n * (M64 / n)) n := (cdiv_add_mul h0 _ _).symm
      _ ≤ cdiv ((k + 1) * M64) n := cdiv_mono h1
  have e2 : cdiv ((k + 1) * M64) n ≤ cdiv (k * M64) n + cdiv M64 n := by
    rw [cdiv_le_iff h0, Nat.mul_add]
    have h1 := le_mul_cdiv h0 (k * M64)
    have h2 := le_mul_cdiv h0 M64
    have e : (k + 1) * M64 = k * M64 + M64 := by ring
    omega
  have e3 := cdiv_le_div_add_one h0 M64
  omega

theorem counts_within_one {n j k : ℕ} (h0 : 0 < n) (hn : n < M32)
    (hj : j < n) (hk : k < n) : countDraws n j ≤ countDraws n k + 1 := by
  have b1 := countDraws_bounds h0 hn hj
  have b2 := countDraws_bounds h0 hn hk
  omega

/-- Claim C8 (amended): for every `n > 0` and raw 64-bit value `r`,
`uniformUint32(n)` — the high 64 bits of the product `n × r`, truncated to
32 bits — returns a value in `[0, n)`; over all `2^64` raw values the
result is as close to uniform as possible — any two results' draw counts
differ by at most one — but it is not exactly equidistributed. -/
theorem C8_randn_range_and_near_uniform (n r : ℕ) (h0 : 0 < n) :
    RandN n r = n * (r % M64) / M64 % M32 ∧
    RandN n r < n ∧
    (n < M32 → ∀ j k, j < n → k < n → countDraws n j ≤ countDraws n k + 1) :=
  ⟨rfl, RandN_lt r h0, fun hn _ _ hj hk => counts_within_one h0 hn hj hk⟩

/-- Witness for C8 at `n = 3`, `r = 5`: the draw is below 3, and the counts
of results 0 and 1 over all raw values differ by at most one. -/
theorem C8_randn_range_and_near_uniform_witness :
    RandN 3 5 < 3 ∧ countDraws 3 0 ≤ countDraws 3 1 + 1 := by
  obtain ⟨-, h2, h3⟩ := C8_randn_range_and_near_uniform 3 5 (by norm_num)
  exact ⟨h2, h3 (by norm_num [M32]) 0 1 (by norm_num) (by norm_num)⟩

/-- Counterexample to Claim C8 as stated: for `n = 3` the results are not
attained equally often over the `2^64` raw values — result 0 occurs once
more than result 1 (`3` does not divide `2^64`). -/
theorem C8_not_equidistributed_counterexample :
    countDraws 3 0 ≠ countDraws 3 1 := by
  rw [countDraws_eq (by norm_num) (by norm_num [M32]) (by norm_num),
    countDraws_eq (by norm_num) (by norm_num [M32]) (by norm_num)]
  norm_num [cdiv, M64]

/-- The iteration count drawn by `repeat.Append`:
`n := internal.RandN(p.maxr) + p.min` in `uint32` arithmetic. -/
def repeatCount (mn maxr r : ℕ) : ℕ := (RandN maxr r + mn) % M32

/-- The number of raw 64-bit values `r` for which `repeat.Append` draws the
iteration count `j`. -/
def countRepeat (mn maxr j : ℕ) : ℕ :=
  ((Finset.range M64).filter (fun r => repeatCount mn maxr r = j)).card

theorem countRepeat_eq_countDraws (mn maxr j : ℕ) (hmaxr : 0 < maxr)
    (hsum : maxr + mn ≤ M32) (hj : mn ≤ j) :
    countRepeat mn maxr j = countDraws maxr (j - mn) := by
  have hset : ((Finset.range M64).filter fun r => repeatCount mn maxr r = j) =
      ((Finset.range M64).filter fun r => RandN maxr r = j - mn) := by
    ext r
    simp only [Finset.mem_filter, Finset.mem_range]
    have hR := RandN_lt (n := maxr) r hmaxr
    unfold repeatCount
    rw [Nat.mod_eq_of_lt (by omega)]
    constructor
    · rintro ⟨hr, he⟩
      exact ⟨hr, by omega⟩
    · rintro ⟨hr, he⟩
      exact ⟨hr, by omega⟩
  unfold countRepeat countDraws
  rw [hset]

/-- Claim C4 (amended): in the general stored case (`max ≥ 1`, `max > min`,
not the `min = 0, max = 1` optional case), `Repeat` stores
`maxr = max - min + 1` (in `uint32` arithmetic) and each `Append` draws
`n = uniformUint32(maxr) + min` and appends the child sequence exactly `n`
times; for every raw 64-bit draw the count `n` lies in `[min, max]`; and
provided `max - min + 1` does not overflow to 0 (i.e. not
`min = 0, max = 2^32 - 1`), the distribution of `n` over `[min, max]` is
near-uniform — any two counts' draw frequencies differ by at most one —
though not exactly uniform. -/
theorem C4_repeat_general_draw (mn mx : ℕ) (p : List Part) (h1 : 1 ≤ mx)
    (h2 : mn < mx) (h3 : ¬(mn = 0 ∧ mx = 1)) (hx : mx < M32) :
    Repeat mn mx p = some (Part.repeatp p mn ((mx - mn + 1) % M32)) ∧
    (∀ tape b, Append (Part.repeatp p mn ((mx - mn + 1) % M32)) tape b =
      (appendAll (repList (repeatCount mn ((mx - mn + 1) % M32) (tape 0)) p)
          (shift tape 1) b).map (fun r => (r.1, r.2 + 1))) ∧
    (∀ r, mn ≤ repeatCount mn ((mx - mn + 1) % M32) r ∧
          repeatCount mn ((mx - mn + 1) % M32) r ≤ mx) ∧
    (mx - mn + 1 < M32 →
      ∀ j k, mn ≤ j → j ≤ mx → mn ≤ k → k ≤ mx →
        countRepeat mn (mx - mn + 1) j ≤ countRepeat mn (mx - mn + 1) k + 1) := by
  have hM32 : (0 : ℕ) < M32 := by norm_num [M32]
  refine ⟨?_, ?_, ?_, ?_⟩
  · have e0 : ¬(mx = 0) := by omega
    have e1 : ¬(mx < mn) := by omega
    have e2 : ¬(0 < mn ∧ mn = mx) := by omega
    simp [Repeat, e0, e1, e2, h3]
  · intro tape b
    rw [Append_repeatp]
    rfl
  · intro r
    rcases Nat.lt_or_ge (mx - mn + 1) M32 with hlt | hge
    · have e : (mx - mn + 1) % M32 = mx - mn + 1 := Nat.mod_eq_of_lt hlt
      rw [e]
      have hR := RandN_lt (n := mx - mn + 1) r (by omega)
      unfold repeatCount
      rw [Nat.mod_eq_of_lt (by omega)]
      omega
    · have he : mx - mn + 1 = M32 := by omega
      have e : (mx - mn + 1) % M32 = 0 := by rw [he]; exact Nat.mod_self M32
      have hmn : mn < M32 := by omega
      rw [e]
      have hz : RandN 0 r = 0 := by simp [RandN]
      unfold repeatCount
      rw [hz, Nat.zero_add, Nat.mod_eq_of_lt hmn]
      omega
  · intro hlt j k hj1 hj2 hk1 hk2
    have hmaxr : 0 < mx - mn + 1 := by omega
    have hsum : (mx - mn + 1) + mn ≤ M32 := by omega
    rw [countRepeat_eq_countDraws mn (mx - mn + 1) j hmaxr hsum hj1,
      countRepeat_eq_countDraws mn (mx - mn + 1) k hmaxr hsum hk1]
    exact counts_within_one hmaxr hlt (by omega) (by omega)

/-- Witness for C4 at `Repeat(1, 3, …)`: the stored node has
`maxr = 3`, a draw from raw value 7 lies in `[1, 3]`, and the counts of
the iteration values 1 and 2 differ by at most one. -/
theorem C4_repeat_general_draw_witness :
    Repeat 1 3 [] = some (Part.repeatp [] 1 ((3 - 1 + 1) % M32)) ∧
    (1 ≤ repeatCount 1 ((3 - 1 + 1) % M32) 7 ∧
      repeatCount 1 ((3 - 1 + 1) % M32) 7 ≤ 3) ∧
    countRepeat 1 (3 - 1 + 1) 1 ≤ countRepeat 1 (3 - 1 + 1) 2 + 1 := by
  obtain ⟨h1, h2, h3, h4⟩ := C4_repeat_general_draw 1 3 [] (by norm_num)
    (by norm_num) (by norm_num) (by norm_num [M32])
  exact ⟨h1, h3 7, h4 (by norm_num [M32]) 1 2 (by norm_num) (by norm_num)
    (by norm_num) (by norm_num)⟩

/-- Counterexample to Claim C4 as stated: for `Repeat(0, 2, …)` the stored
width is `maxr = 3` and the iteration count is `uniformUint32(3)`, which is
not uniformly distributed over `[0, 2]`: the count 0 is drawn by one more
raw 64-bit value than the count 1. -/
theorem C4_repeat_not_uniform_counterexample :
    countRepeat 0 3 0 ≠ countRepeat 0 3 1 := by
  rw [countRepeat_eq_countDraws 0 3 0 (by norm_num) (by norm_num [M32])
      (by norm_num),
    countRepeat_eq_countDraws 0 3 1 (by norm_num) (by norm_num [M32])
      (by norm_num),
    countDraws_eq (by norm_num) (by norm_num [M32]) (by norm_num),
    countDraws_eq (by norm_num) (by norm_num [M32]) (by norm_num)]
  norm_num [cdiv, M64]

theorem listSwap_length {α : Type*} (l : List α) (i j : ℕ) :
    (listSwap l i j).length = l.length := by
  unfold listSwap
  rcases hi : l[i]? with _ | x <;> rcases hj : l[j]? with _ | y <;>
    simp [List.length_set]

theorem cons_set_perm {α : Type*} :
    ∀ (t : List α) (k : ℕ) (hk : k < t.length) (a : α),
      List.Perm (t.get ⟨k, hk⟩ :: t.set k a) (a :: t) := by
  intro t
  induction t with
  | nil =>
    intro k hk
    exact absurd hk (Nat.not_lt_zero k)
  | cons b s ih =>
    intro k hk a
    cases k with
    | zero =>
      simp only [List.get, List.set]
      exact List.Perm.swap a b s
    | succ m =>
      simp only [List.get, List.set]
      have hm : m < s.length := by
        simp only [List.length_cons] at hk
        omega
      have h1 : List.Perm (s.get ⟨m, hm⟩ :: b :: s.set m a) (b :: s.get ⟨m, hm⟩ :: s.set m a) :=
        List.Perm.swap b _ _
      have h2 : List.Perm (b :: (s.get ⟨m, hm⟩ :: s.set m a)) (b :: (a :: s)) :=
        (ih m hm a).cons b
      have h3 : List.Perm (b :: a :: s) (a :: b :: s) := List.Perm.swap a b s
      exact h1.trans (h2.trans h3)

theorem set_set_perm {α : Type*} :
    ∀ (l : List α) (i j : ℕ) (hi : i < l.length) (hj : j < l.length),
      List.Perm ((l.set i (l.get ⟨j, hj⟩)).set j (l.get ⟨i, hi⟩)) l := by
  intro l
  induction l with
  | nil =>
    intro i j hi
    exact absurd hi (Nat.not_lt_zero i)
  | cons a t ih =>
    intro i j hi hj
    cases i with
    | zero =>
      cases j with
      | zero => simp
      | succ m =>
        have hm : m < t.length := by
          simp only [List.length_cons] at hj
          omega
        simp only [List.get, List.set]
        exact cons_set_perm t m hm a
    | succ m1 =>
      cases j with
      | zero =>
        have hm1 : m1 < t.length := by
          simp only [List.length_cons] at hi
          omega
        simp only [List.get, List.set]
        exact cons_set_perm t m1 hm1 a
      | succ m2 =>
        have hm1 : m1 < t.length := by
          simp only [List.length_cons] at hi
          omega
        have hm2 : m2 < t.length := by
          simp only [List.length_cons] at hj
          omega
        simp only [List.get, List.set]
        exact (ih m1 m2 hm1 hm2).cons a

theorem listSwap_perm {α : Type*} (l : List α) (i j : ℕ) :
    List.Perm (listSwap l i j) l := by
  unfold listSwap
  rcases hi : l[i]? with _ | x <;> rcases hj : l[j]? with _ | y <;> simp only
  · exact List.Perm.refl l
  · exact List.Perm.refl l
  · exact List.Perm.refl l
  · obtain ⟨hbi, hxi⟩ := List.getElem?_eq_some_iff.mp hi
    obtain ⟨hbj, hxj⟩ := List.getElem?_eq_some_iff.mp hj
    subst hxi
    subst hxj
    exact set_set_perm l i j hbi hbj

theorem fyRun_perm {α : Type*} (ds : List ℕ) (l : List α) :
    List.Perm (fyRun ds l) l := by
  induction ds generalizing l with
  | nil => exact List.Perm.refl l
  | cons j rest ih =>
    simp only [fyRun]
    exact (ih _).trans (listSwap_perm l _ j)

theorem listSwap_getElem?_of_gt {α : Type*} (l : List α) {i j k : ℕ}
    (hik : i < k) (hjk : j < k) : (listSwap l i j)[k]? = l[k]? := by
  unfold listSwap
  rcases hi : l[i]? with _ | x <;> rcases hj : l[j]? with _ | y <;> simp only
  rw [List.getElem?_set_ne (by omega), List.getElem?_set_ne (by omega)]

theorem listSwap_getElem?_left {α : Type*} (l : List α) {i j : ℕ}
    (hi : i < l.length) (hj : j < l.length) : (listSwap l i j)[i]? = l[j]? := by
  unfold listSwap
  rw [List.getElem?_eq_getElem hi, List.getElem?_eq_getElem hj]
  dsimp only
  by_cases hij : i = j
  · subst hij
    have h1 : i < (l.set i (l[i])).length := by
      simp only [List.length_set]
      exact hi
    rw [List.getElem?_set_self h1]
  · have hji : j ≠ i := fun h => hij h.symm
    rw [List.getElem?_set_ne hji]
    have h1 : i < l.length := hi
    rw [List.getElem?_set_self h1]

/-- Validity of a Fisher–Yates draw list: each draw stays within the index
range it was drawn for (`j < i + 1` at index `i`). -/
def dvalid : List ℕ → Prop
  | [] => True
  | j :: rest => j ≤ rest.length + 1 ∧ dvalid rest

theorem fyRun_getElem?_of_gt {α : Type*} :
    ∀ (ds : List ℕ), dvalid ds → ∀ (l : List α) (k : ℕ), ds.length < k →
      (fyRun ds l)[k]? = l[k]? := by
  intro ds
  induction ds with
  | nil =>
    intro _ l k _
    rfl
  | cons j rest ih =>
    intro hv l k hk
    simp only [List.length_cons] at hk
    simp only [fyRun]
    rw [ih hv.2 _ k (by omega)]
    exact listSwap_getElem?_of_gt l (by omega) (by
      have := hv.1
      omega)

theorem fyRun_cons_getElem? {α : Type*} (j : ℕ) (rest : List ℕ)
    (hv : dvalid rest) (l : List α) (hi : rest.length + 1 < l.length)
    (hj : j < l.length) :
    (fyRun (j :: rest) l)[rest.length + 1]? = l[j]? := by
  simp only [fyRun]
  rw [fyRun_getElem?_of_gt rest hv _ _ (by omega)]
  exact listSwap_getElem?_left l hi hj

/-- The set of all valid Fisher–Yates draw lists of length `m` (for indices
`i = m` down to `i = 1`): the draw at position `k` ranges over
`[0, m - k]` inclusive. -/
def drawTuples : ℕ → Finset (List ℕ)
  | 0 => {[]}
  | m + 1 =>
    (Finset.range (m + 2)).biUnion fun j => (drawTuples m).image fun ds => j :: ds

theorem mem_drawTuples {m : ℕ} {ds : List ℕ} (h : ds ∈ drawTuples m) :
    ds.length = m ∧ dvalid ds := by
  induction m generalizing ds with
  | zero =>
    simp only [drawTuples, Finset.mem_singleton] at h
    subst h
    exact ⟨rfl, trivial⟩
  | succ m ih =>
    simp only [drawTuples, Finset.mem_biUnion, Finset.mem_image,
      Finset.mem_range] at h
    obtain ⟨j, hj, t, ht, rfl⟩ := h
    obtain ⟨hlen, hval⟩ := ih ht
    refine ⟨by simp [hlen], ?_⟩
    exact ⟨by omega, hval⟩

theorem card_drawTuples (m : ℕ) : (drawTuples m).card = Nat.factorial (m + 1) := by
  induction m with
  | zero => simp [drawTuples]
  | succ m ih =>
    show ((Finset.range (m + 2)).biUnion fun j =>
      (drawTuples m).image fun ds => j :: ds).card = Nat.factorial (m + 2)
    rw [Finset.card_biUnion]
    · have hcard : ∀ j ∈ Finset.range (m + 2),
          ((drawTuples m).image fun ds => j :: ds).card = Nat.factorial (m + 1) := by
        intro j _
        rw [Finset.card_image_of_injective _ (fun a b h => by injection h), ih]
      rw [Finset.sum_congr rfl hcard, Finset.sum_const, Finset.card_range,
        smul_eq_mul, Nat.factorial_succ]
      rw [show m + 2 = (m + 1) + 1 from rfl, Nat.factorial_succ, Nat.factorial_succ]
    · intro x _ y _ hxy
      rw [Finset.disjoint_left]
      rintro a ha hb
      simp only [Finset.mem_image] at ha hb
      obtain ⟨t1, _, rfl⟩ := ha
      obtain ⟨t2, _, he⟩ := hb
      exact hxy (by injection he with h1 h2; exact h1.symm)

theorem shuffleDraws_mem (m : ℕ) :
    ∀ tape, shuffleDraws (m + 1) tape ∈ drawTuples m := by
  induction m with
  | zero =>
    intro tape
    simp [shuffleDraws, drawTuples]
  | succ m ih =>
    intro tape
    show RandN (m + 2) (tape 0) :: shuffleDraws (m + 1) (shift tape 1) ∈
      drawTuples (m + 1)
    simp only [drawTuples, Finset.mem_biUnion, Finset.mem_image, Finset.mem_range]
    exact ⟨RandN (m + 2) (tape 0), RandN_lt _ (by omega),
      shuffleDraws (m + 1) (shift tape 1), ih _, rfl⟩

theorem fyRun_inj_aux :
    ∀ (m : ℕ) (ds₁ ds₂ : List ℕ), ds₁ ∈ drawTuples m → ds₂ ∈ drawTuples m →
      ∀ (l : List ℕ), l.Nodup → m < l.length →
        fyRun ds₁ l = fyRun ds₂ l → ds₁ = ds₂ := by
  intro m
  induction m with
  | zero =>
    intro ds₁ ds₂ h1 h2 l _ _ _
    simp only [drawTuples, Finset.mem_singleton] at h1 h2
    rw [h1, h2]
  | succ m ih =>
    intro ds₁ ds₂ h1 h2 l hnd hlen he
    simp only [drawTuples, Finset.mem_biUnion, Finset.mem_image,
      Finset.mem_range] at h1 h2
    obtain ⟨j₁, hj₁, t₁, ht₁, rfl⟩ := h1
    obtain ⟨j₂, hj₂, t₂, ht₂, rfl⟩ := h2
    obtain ⟨hl₁, hv₁⟩ := mem_drawTuples ht₁
    obtain ⟨hl₂, hv₂⟩ := mem_drawTuples ht₂
    have hval₁ : j₁ < l.length := by omega
    have hval₂ : j₂ < l.length := by omega
    have hh₁ : (fyRun (j₁ :: t₁) l)[t₁.length + 1]? = l[j₁]? :=
      fyRun_cons_getElem? j₁ t₁ hv₁ l (by omega) hval₁
    have hh₂ : (fyRun (j₂ :: t₂) l)[t₂.length + 1]? = l[j₂]? :=
      fyRun_cons_getElem? j₂ t₂ hv₂ l (by omega) hval₂
    rw [hl₁] at hh₁
    rw [hl₂] at hh₂
    have hlq : l[j₁]? = l[j₂]? := by rw [← hh₁, ← hh₂, he]
    have hjj : j₁ = j₂ := by
      rw [List.getElem?_eq_getElem hval₁, List.getElem?_eq_getElem hval₂] at hlq
      exact (List.Nodup.getElem_inj_iff hnd).mp (Option.some_inj.mp hlq)
    subst hjj
    have htl : fyRun t₁ (listSwap l (m + 1) j₁) =
        fyRun t₂ (listSwap l (m + 1) j₁) := by
      have e1 : fyRun (j₁ :: t₁) l = fyRun t₁ (listSwap l (t₁.length + 1) j₁) := rfl
      have e2 : fyRun (j₁ :: t₂) l = fyRun t₂ (listSwap l (t₂.length + 1) j₁) := rfl
      rw [hl₁] at e1
      rw [hl₂] at e2
      rw [← e1, ← e2, he]
    refine congrArg (j₁ :: ·) ?_
    refine ih t₁ t₂ ht₁ ht₂ (listSwap l (m + 1) j₁) ?_ ?_ htl
    · exact (listSwap_perm l (m + 1) j₁).nodup_iff.mpr hnd
    · rw [listSwap_length]
      omega

theorem fyRun_injOn (n : ℕ) :
    Set.InjOn (fun ds => fyRun ds (List.range n)) ↑(drawTuples (n - 1)) := by
  intro a ha b hb hab
  by_cases hn : 1 ≤ n
  · exact fyRun_inj_aux (n - 1) a b ha hb (List.range n) (List.nodup_range n)
      (by rw [List.length_range]; omega) hab
  · have h0 : n = 0 := by omega
    subst h0
    simp only [Nat.zero_sub, drawTuples, Finset.coe_singleton,
      Set.mem_singleton_iff] at ha hb
    rw [ha, hb]

/-- The set of permutations of `[0, …, n-1]`, as lists. -/
def permsOfRange (n : ℕ) : Finset (List ℕ) :=
  ((List.range n).permutations).toFinset

theorem mem_permsOfRange {n : ℕ} {w : List ℕ} :
    w ∈ permsOfRange n ↔ List.Perm w (List.range n) := by
  simp [permsOfRange, List.mem_toFinset, List.mem_permutations]

theorem card_permsOfRange (n : ℕ) : (permsOfRange n).card = Nat.factorial n := by
  unfold permsOfRange
  rw [List.toFinset_card_of_nodup (List.nodup_permutations _ (List.nodup_range n)),
    List.length_permutations, List.length_range]

theorem fyRun_image (n : ℕ) (hn : 1 ≤ n) :
    (drawTuples (n - 1)).image (fun ds => fyRun ds (List.range n)) =
      permsOfRange n := by
  apply Finset.eq_of_subset_of_card_le
  · intro w hw
    simp only [Finset.mem_image] at hw
    obtain ⟨ds, _, rfl⟩ := hw
    exact mem_permsOfRange.mpr (fyRun_perm ds (List.range n))
  · rw [card_permsOfRange, Finset.card_image_of_injOn (fyRun_injOn n),
      card_drawTuples]
    have e : n - 1 + 1 = n := by omega
    rw [e]

/-- Claim C7: `Shuffle(p...)` with a non-empty child list of length `n`
performs an in-place Fisher–Yates pass immediately before appending — for
`i` from `n - 1` down to `1` it draws `j = uniformUint32(i + 1)` and swaps
`children[i]` with `children[j]` — then appends all children in the
shuffled order; the draws always form a valid draw tuple, there are exactly
`n!` such tuples, and (assuming each draw `j` is uniform over `[0, i]`)
every permutation of the `n` positions is produced by exactly one tuple,
hence with probability `1/n!` — the map from draw tuples to permutations
is a bijection. -/
theorem C7_shuffle_uniform_permutation (n : ℕ) (hn : 1 ≤ n)
    (parts : List Part) (hp : parts.length = n) :
    (∀ tape b, Append (Part.shuffle parts) tape b =
      (appendAll (fyRun (shuffleDraws n tape) parts) (shift tape (n - 1)) b).map
        (fun r => (r.1, r.2 + (n - 1)))) ∧
    (∀ tape, shuffleDraws n tape ∈ drawTuples (n - 1)) ∧
    (drawTuples (n - 1)).card = Nat.factorial n ∧
    (∀ w, List.Perm w (List.range n) →
      ((drawTuples (n - 1)).filter fun ds =>
        fyRun ds (List.range n) = w).card = 1) := by
  refine ⟨?_, ?_, ?_, ?_⟩
  · intro tape b
    rw [Append_shuffle, hp, if_neg (by omega)]
  · intro tape
    obtain ⟨m, rfl⟩ : ∃ m, n = m + 1 := ⟨n - 1, by omega⟩
    simp only [Nat.add_sub_cancel]
    exact shuffleDraws_mem m tape
  · rw [card_drawTuples]
    congr 1
    omega
  · intro w hw
    have hwmem : w ∈ (drawTuples (n - 1)).image
        (fun ds => fyRun ds (List.range n)) := by
      rw [fyRun_image n hn]
      exact mem_permsOfRange.mpr hw
    obtain ⟨ds, hds, hde⟩ := Finset.mem_image.mp hwmem
    rw [Finset.card_eq_one]
    refine ⟨ds, ?_⟩
    ext y
    simp only [Finset.mem_filter, Finset.mem_singleton]
    constructor
    · rintro ⟨hy, hye⟩
      exact fyRun_injOn n hy hds (by simp only []; rw [hye, hde])
    · rintro rfl
      exact ⟨hds, hde⟩

/-- Witness for C7 on three children: the actual draws of an all-zero tape
form a valid tuple, there are `3! = 6` tuples, and the permutation
`[2, 0, 1]` of the three positions is reached by exactly one tuple. -/
theorem C7_shuffle_uniform_permutation_witness :
    (drawTuples (3 - 1)).card = Nat.factorial 3 ∧
    ((drawTuples (3 - 1)).filter fun ds =>
      fyRun ds (List.range 3) = [2, 0, 1]).card = 1 ∧
    shuffleDraws 3 (fun _ => 0) ∈ drawTuples (3 - 1) := by
  obtain ⟨h1, h2, h3, h4⟩ := C7_shuffle_uniform_permutation 3 (by norm_num)
    [Part.literal [97], Part.literal [98], Part.literal [99]] rfl
  exact ⟨h3, h4 [2, 0, 1] (by decide), h2 (fun _ => 0)⟩

end Pattern
